import Mathlib

/-!
Verification of the `tf-tpu-extract-head-tail-outside-compilation` MLIR pass
(`tensorflow/compiler/mlir/tensorflow/transforms/tpu_extract_head_tail_outside_compilation.cc`).

The IR is embedded as an arena of operations addressed by stable numeric ids.
A `Val` is a single-assignment datum: either a value defined at module level
(`ext n`, playing the role of function arguments / values defined above
everything we model) or result `k` of the operation with arena id `i`
(`res i k`).  An operation records its ordered operand list, its number of
results, whether it carries the `_xla_outside_compilation` string attribute
(field `tagged`), its kind (`tf_device.cluster`, `tf_device.launch`,
`tf_device.return` or an ordinary op) and the ordered list of arena ids
forming the single block of its nested region (empty for ordinary ops).
A module is the arena plus the ordered top-level block.

Use-lists are recovered from the arena: the users of a value are the
operations having it among their operands, enumerated in arena order (MLIR
leaves the iteration order of a use-list unspecified; arena order is the
deterministic choice made here, and no theorem below depends on it in a way
the C++ code does not).
-/

inductive Val where
  | ext (n : Nat)
  | res (op : Nat) (idx : Nat)
deriving DecidableEq, Repr

inductive OpKind where
  | plain
  | cluster
  | launch
  | ret
deriving DecidableEq, Repr

structure OpData where
  kind : OpKind
  operands : List Val
  numResults : Nat
  tagged : Bool
  body : List Nat
deriving DecidableEq, Repr

instance : Inhabited OpData := ⟨⟨OpKind.plain, [], 0, false, []⟩⟩

structure IRModule where
  ops : List (Nat × OpData)
  top : List Nat
deriving DecidableEq, Repr

/-- Boolean membership test for lists over a type with decidable equality. -/
def melem {α : Type} [DecidableEq α] (x : α) (l : List α) : Bool :=
  decide (x ∈ l)

/-- Insertion into an `llvm::SetVector`: append at the end unless present. -/
def insertSV {α : Type} [DecidableEq α] (l : List α) (x : α) : List α :=
  if x ∈ l then l else l ++ [x]

/-- Insert a whole list, in order, into a `SetVector` (range insert). -/
def mergeSV {α : Type} [DecidableEq α] (l : List α) (xs : List α) : List α :=
  xs.foldl insertSV l

/-- Index of the first occurrence of an element (length if absent). -/
def idxOf {α : Type} [DecidableEq α] : List α → α → Nat
  | [], _ => 0
  | a :: l, x => if a = x then 0 else idxOf l x + 1

/-- First-seen-order deduplication, as a `SetVector` built by repeated insert. -/
def dedupSV {α : Type} [DecidableEq α] (l : List α) : List α :=
  mergeSV [] l

/-- Association-list lookup into the arena (first entry with the given id). -/
def lookupOp : List (Nat × OpData) → Nat → OpData
  | [], _ => default
  | p :: rest, i => if p.1 = i then p.2 else lookupOp rest i

def IRModule.get (m : IRModule) (i : Nat) : OpData :=
  lookupOp m.ops i

/-- Arena ids of all operations of the module. -/
def arenaIds (m : IRModule) : List Nat :=
  m.ops.map (fun p => p.1)

/-- Largest arena id (0 for an empty module). -/
def maxId (m : IRModule) : Nat :=
  (arenaIds m).foldl max 0

/-- First id not used by the arena; ids of newly created ops start here. -/
def freshId (m : IRModule) : Nat :=
  maxId m + 1

/-- Fuel that provably suffices for the head-extraction worklist loop. -/
def fuelBound (m : IRModule) : Nat :=
  maxId m + 2

/-- The ordered result values of operation `i`. -/
def results (m : IRModule) (i : Nat) : List Val :=
  (List.range (m.get i).numResults).map (fun k => Val.res i k)

/-- Owners of the use-sites of `v` (each op listed once, in arena order). -/
def usersOf (m : IRModule) (v : Val) : List Nat :=
  (m.ops.filter (fun p => melem v p.2.operands)).map (fun p => p.1)

/-- Preorder walk of the ops reachable from a block, recursing into bodies. -/
def walkList (m : IRModule) : Nat → List Nat → List Nat
  | 0, _ => []
  | fuel + 1, ids => ids.flatMap (fun i => i :: walkList m fuel (m.get i).body)

/-- All ops transitively inside the body region of op `c`. -/
def regionOps (m : IRModule) (c : Nat) : List Nat :=
  walkList m (m.ops.length + 1) (m.get c).body

/-- Whether a value is defined outside the given set of region ops. -/
def definedOutside (rops : List Nat) : Val → Bool
  | Val.ext _ => true
  | Val.res j _ => !(melem j rops)

/-- Shallow embedding of `getUsedValuesDefinedAbove` applied to the body
region of op `c`: the values defined outside that region but used by an op
inside it (including nested sub-regions), first-seen order, deduplicated. -/
def getUsedValuesDefinedAbove (m : IRModule) (c : Nat) : List Val :=
  let rops := regionOps m c
  dedupSV ((walkList m (m.ops.length + 1) (m.get c).body).flatMap
    (fun i => (m.get i).operands.filter (definedOutside rops)))

/-- Whether op `i` carries the `_xla_outside_compilation` attribute. -/
def HasOutsideCompilationAttribute (m : IRModule) (i : Nat) : Bool :=
  (m.get i).tagged

/-- Whether all operands of op `i` come from values in `input_value_set`. -/
def OpContainsOperandsFromSet (m : IRModule) (i : Nat) (input_value_set : List Val) : Bool :=
  (m.get i).operands.all (fun v => melem v input_value_set)

/-- One acceptance test of the head-set builder.  State is the pair
(`outside_compiled_op_usages`, `outside_compiled_ops`): the available values
and the local `SetVector` of ops being collected this round. -/
def RecordOutsideCompiledOpsAndUsages (m : IRModule) (i : Nat)
    (st : List Val × List Nat) : List Val × List Nat :=
  if HasOutsideCompilationAttribute m i && OpContainsOperandsFromSet m i st.1 then
    (mergeSV st.1 (results m i), insertSV st.2 i)
  else st

/-- Record every owner of a use of every result of every op of `round`,
starting from an empty local set, threading the available-value set. -/
def scanRound (m : IRModule) (round : List Nat) (used : List Val) :
    List Val × List Nat :=
  ((round.flatMap (results m)).flatMap (usersOf m)).foldl
    (fun st u => RecordOutsideCompiledOpsAndUsages m u st) (used, [])

/-- The `while (!parent_outside_compiled_ops_at_head.empty())` loop of
`ExtractOutsideCompiledOpsConnectedToHead`, fuelled.  State components are
the available values, the global accepted `SetVector` and the current round. -/
def extractLoop (m : IRModule) : Nat → List Val → List Nat → List Nat →
    List Val × List Nat × List Nat
  | 0, used, head, round => (used, head, round)
  | fuel + 1, used, head, round =>
    if round = [] then (used, head, round)
    else
      let p := scanRound m round used
      extractLoop m fuel p.1 (mergeSV head round) p.2

/-- Head extraction seeded from one boundary value, exposing the final loop
state (available values, accepted ops, leftover round). -/
def ExtractConnectedToHeadFull (m : IRModule) (fuel : Nat)
    (st : List Val × List Nat) (input_value : Val) :
    List Val × List Nat × List Nat :=
  let p := (usersOf m input_value).foldl
    (fun s u => RecordOutsideCompiledOpsAndUsages m u s) (st.1, [])
  extractLoop m fuel p.1 st.2 p.2

/-- Shallow embedding of `ExtractOutsideCompiledOpsConnectedToHead`. -/
def ExtractOutsideCompiledOpsConnectedToHead (m : IRModule) (fuel : Nat)
    (st : List Val × List Nat) (input_value : Val) : List Val × List Nat :=
  let r := ExtractConnectedToHeadFull m fuel st input_value
  (r.1, r.2.1)

/-- Shallow embedding of `IdentifyOutsideCompiledOpsAtHead` on the cluster op
with arena id `c`; returns (`values_used_in_cluster`, head set). -/
def IdentifyOutsideCompiledOpsAtHead (m : IRModule) (c : Nat) :
    List Val × List Nat :=
  let b := getUsedValuesDefinedAbove m c
  b.foldl (ExtractOutsideCompiledOpsConnectedToHead m (fuelBound m)) (b, [])

/-- Shallow embedding of `GetHeadExtractedClusterOutputs`. -/
def GetHeadExtractedClusterOutputs (m : IRModule) (head : List Nat) : List Val :=
  head.flatMap (fun i =>
    if (results m i).any (fun r => (usersOf m r).any (fun u => !melem u head)) then
      results m i
    else [])

/-- Insert `newId` immediately before every occurrence of `c` in a block. -/
def insertBeforeId (blk : List Nat) (c newId : Nat) : List Nat :=
  blk.flatMap (fun i => if i = c then [newId, i] else [i])

/-- Redirection of one use: an output value is replaced by the launch result
with the same index. -/
def rewireVal (outs : List Val) (launchId : Nat) (v : Val) : Val :=
  if melem v outs then Val.res launchId (idxOf outs v) else v

/-- Per-op effect of `IsolateHeadExtractedOpsToLaunchOp` on the data of op
`i`: operands of ops outside the head set are rewired to the launch results;
head-set ops are removed from every block; the launch op is inserted before
the cluster. -/
def isolateData (head : List Nat) (outs : List Val) (launchId c : Nat)
    (i : Nat) (d : OpData) : OpData :=
  let d1 := if melem i head then d
    else { d with operands := d.operands.map (rewireVal outs launchId) }
  { d1 with
    body := insertBeforeId (d1.body.filter (fun j => !melem j head)) c launchId }

/-- Per-arena-entry effect of `IsolateHeadExtractedOpsToLaunchOp`. -/
def isolateEntry (head : List Nat) (outs : List Val) (launchId c : Nat)
    (p : Nat × OpData) : Nat × OpData :=
  (p.1, isolateData head outs launchId c p.1 p.2)

/-- Shallow embedding of `IsolateHeadExtractedOpsToLaunchOp` for the cluster
with arena id `c`.  Returns the mutated module and the id of the created
`tf_device.launch` op (or `none` when the head set is empty). -/
def IsolateHeadExtractedOpsToLaunchOp (m : IRModule) (c : Nat)
    (head : List Nat) : IRModule × Option Nat :=
  if head = [] then (m, none) else
  let outs := GetHeadExtractedClusterOutputs m head
  let launchId := freshId m
  let termId := launchId + 1
  let launchData : OpData :=
    ⟨OpKind.launch, [], outs.length, false, head ++ [termId]⟩
  let termData : OpData := ⟨OpKind.ret, outs, 0, false, []⟩
  ({ ops := m.ops.map (isolateEntry head outs launchId c)
        ++ [(launchId, launchData), (termId, termData)],
     top := insertBeforeId (m.top.filter (fun i => !melem i head)) c launchId },
   some launchId)

def isCluster (d : OpData) : Bool :=
  match d.kind with
  | OpKind.cluster => true
  | _ => false

/-- The `tf_device.ClusterOp`s visited by `module.walk`, in walk order. -/
def clusters (m : IRModule) : List Nat :=
  (walkList m (m.ops.length + 1) m.top).filter (fun i => isCluster (m.get i))

/-- Body of the per-cluster callback of `runOnOperation`. -/
def processCluster (m : IRModule) (c : Nat) : IRModule :=
  (IsolateHeadExtractedOpsToLaunchOp m c (IdentifyOutsideCompiledOpsAtHead m c).2).1

/-- Shallow embedding of `TPUExtractHeadTailOutsideCompilation::runOnOperation`.
Modelled from the spec: `tensorflow::GetDevicesFromOp` (the Device Metadata
Provider of `utils/device_util.h`, outside this translation unit) is
abstracted by the boolean `devicesOk` recording whether it succeeded; on
failure the pass calls `signalPassFailure` (the `false` component of the
result) and returns without walking any cluster. -/
def runOnOperation (devicesOk : Bool) (m : IRModule) : Bool × IRModule :=
  if devicesOk then (true, (clusters m).foldl processCluster m)
  else (false, m)

/-- Well-formedness of one operand: results referenced by op `i` come from a
strictly earlier op of the arena (the def-before-use / dominance invariant of
a linear block, keyed by arena id). -/
def wfVal (m : IRModule) (i : Nat) : Val → Bool
  | Val.ext _ => true
  | Val.res j _ => decide (j < i) && melem j (arenaIds m)

def wfOps (m : IRModule) : Bool :=
  m.ops.all (fun p => p.2.operands.all (wfVal m p.1))

/-- A well-formed input module: distinct arena ids and operands referencing
only earlier ops (acyclicity / def-before-use). -/
def WF (m : IRModule) : Prop :=
  (arenaIds m).Nodup ∧ wfOps m = true

instance (m : IRModule) : Decidable (WF m) := by
  unfold WF
  infer_instance

/-! Concrete modules used to test the pass on small inputs.  Each op is an
arena entry `(id, ⟨kind, operands, numResults, tagged, body⟩)`. -/

/-- A cluster whose single tagged op has an unused result: head set `{0}`,
empty output list. -/
def demoEmptyOutputs : IRModule :=
  { ops := [ (0, ⟨OpKind.plain, [Val.ext 0], 1, true, []⟩),
             (1, ⟨OpKind.cluster, [], 0, false, [0, 2]⟩),
             (2, ⟨OpKind.ret, [], 0, false, []⟩) ],
    top := [1] }

/-- A cluster with three tagged ops `0 → 1` and `2` off the same boundary
value; acceptance proceeds in rounds `{0, 2}` then `{1}`, so the move order
differs from the body order `0, 1, 2`. -/
def demoReordered : IRModule :=
  { ops := [ (0, ⟨OpKind.plain, [Val.ext 0], 1, true, []⟩),
             (1, ⟨OpKind.plain, [Val.res 0 0], 1, true, []⟩),
             (2, ⟨OpKind.plain, [Val.ext 0], 1, true, []⟩),
             (3, ⟨OpKind.cluster, [], 1, false, [0, 1, 2, 4]⟩),
             (4, ⟨OpKind.ret, [Val.res 1 0, Val.res 2 0], 0, false, []⟩) ],
    top := [3] }

/-- A cluster where the boundary value of the tagged op `0` is also read by
the untagged op `1` that stays behind; after one run the moved op still uses
that boundary value and still carries the tag. -/
def demoSecondRun : IRModule :=
  { ops := [ (0, ⟨OpKind.plain, [Val.ext 0], 1, true, []⟩),
             (1, ⟨OpKind.plain, [Val.ext 0, Val.res 0 0], 1, false, []⟩),
             (2, ⟨OpKind.cluster, [], 1, false, [0, 1, 3]⟩),
             (3, ⟨OpKind.ret, [Val.res 1 0], 0, false, []⟩) ],
    top := [2] }

/-- A tagged op `0` sitting outside the cluster whose result is a boundary
input of the cluster: the consumer `1` is accepted before its producer `0`. -/
def demoOutsideTagged : IRModule :=
  { ops := [ (0, ⟨OpKind.plain, [Val.ext 0], 1, true, []⟩),
             (1, ⟨OpKind.plain, [Val.res 0 0], 1, true, []⟩),
             (2, ⟨OpKind.plain, [Val.ext 0], 0, false, []⟩),
             (3, ⟨OpKind.ret, [Val.res 1 0], 0, false, []⟩),
             (4, ⟨OpKind.cluster, [], 1, false, [1, 2, 3]⟩) ],
    top := [0, 4] }

/-- A cluster containing no tagged op at all. -/
def demoUntagged : IRModule :=
  { ops := [ (0, ⟨OpKind.plain, [Val.ext 0], 1, false, []⟩),
             (1, ⟨OpKind.ret, [Val.res 0 0], 0, false, []⟩),
             (2, ⟨OpKind.cluster, [], 1, false, [0, 1]⟩) ],
    top := [2] }

/-! Basic facts about the `SetVector` operations and the arena lookup. -/

theorem melem_iff {α : Type} [DecidableEq α] {x : α} {l : List α} :
    melem x l = true ↔ x ∈ l := by
  simp [melem]

theorem melem_false_iff {α : Type} [DecidableEq α] {x : α} {l : List α} :
    (!melem x l) = true ↔ x ∉ l := by
  simp [melem]

theorem mem_insertSV {α : Type} [DecidableEq α] {x a : α} {l : List α} :
    x ∈ insertSV l a ↔ x ∈ l ∨ x = a := by
  by_cases h : a ∈ l
  · simp only [insertSV, if_pos h]
    constructor
    · exact Or.inl
    · rintro (hx | rfl)
      · exact hx
      · exact h
  · simp [insertSV, if_neg h]

theorem insertSV_of_mem {α : Type} [DecidableEq α] {a : α} {l : List α}
    (h : a ∈ l) : insertSV l a = l := by
  simp [insertSV, if_pos h]

theorem insertSV_of_not_mem {α : Type} [DecidableEq α] {a : α} {l : List α}
    (h : a ∉ l) : insertSV l a = l ++ [a] := by
  simp [insertSV, if_neg h]

theorem nodup_insertSV {α : Type} [DecidableEq α] {a : α} {l : List α}
    (h : l.Nodup) : (insertSV l a).Nodup := by
  by_cases ha : a ∈ l
  · rw [insertSV_of_mem ha]; exact h
  · rw [insertSV_of_not_mem ha]
    refine List.Nodup.append h (List.nodup_singleton a) ?_
    intro b hb hba
    exact ha ((List.mem_singleton.mp hba) ▸ hb)

theorem mergeSV_nil {α : Type} [DecidableEq α] (l : List α) :
    mergeSV l [] = l := rfl

theorem mergeSV_cons {α : Type} [DecidableEq α] (l : List α) (a : α) (xs : List α) :
    mergeSV l (a :: xs) = mergeSV (insertSV l a) xs := rfl

theorem mem_mergeSV {α : Type} [DecidableEq α] {x : α} {l xs : List α} :
    x ∈ mergeSV l xs ↔ x ∈ l ∨ x ∈ xs := by
  induction xs generalizing l with
  | nil => simp [mergeSV_nil]
  | cons a xs ih =>
    rw [mergeSV_cons, ih, mem_insertSV]
    simp only [List.mem_cons]
    tauto

theorem nodup_mergeSV {α : Type} [DecidableEq α] {l xs : List α}
    (h : l.Nodup) : (mergeSV l xs).Nodup := by
  induction xs generalizing l with
  | nil => exact h
  | cons a xs ih => exact ih (nodup_insertSV h)

theorem mergeSV_insertSV {α : Type} [DecidableEq α] (G l : List α) (a : α) :
    mergeSV G (insertSV l a) = insertSV (mergeSV G l) a := by
  by_cases h : a ∈ l
  · rw [insertSV_of_mem h, insertSV_of_mem (mem_mergeSV.mpr (Or.inr h))]
  · rw [insertSV_of_not_mem h]
    show (l ++ [a]).foldl insertSV G = insertSV (mergeSV G l) a
    rw [List.foldl_append]
    rfl

theorem idxOf_append_left {α : Type} [DecidableEq α] {x : α} {l : List α}
    (l2 : List α) (h : x ∈ l) : idxOf (l ++ l2) x = idxOf l x := by
  induction l with
  | nil => cases h
  | cons a l ih =>
    by_cases hax : a = x
    · simp [idxOf, if_pos hax]
    · have hx : x ∈ l := by
        rcases List.mem_cons.mp h with h1 | h1
        · exact absurd h1.symm hax
        · exact h1
      simp [idxOf, if_neg hax, ih hx]

theorem idxOf_lt_length {α : Type} [DecidableEq α] {x : α} {l : List α}
    (h : x ∈ l) : idxOf l x < l.length := by
  induction l with
  | nil => cases h
  | cons a l ih =>
    by_cases hax : a = x
    · simp [idxOf, if_pos hax]
    · have hx : x ∈ l := by
        rcases List.mem_cons.mp h with h1 | h1
        · exact absurd h1.symm hax
        · exact h1
      simp only [idxOf, if_neg hax, List.length_cons]
      exact Nat.succ_lt_succ (ih hx)

theorem idxOf_append_self {α : Type} [DecidableEq α] {x : α} {l : List α}
    (h : x ∉ l) : idxOf (l ++ [x]) x = l.length := by
  induction l with
  | nil => simp [idxOf]
  | cons a l ih =>
    have hax : a ≠ x := fun e => h (e ▸ List.mem_cons_self a l)
    have hx : x ∉ l := fun e => h (List.mem_cons_of_mem a e)
    simp [idxOf, if_neg hax, ih hx]

theorem idxOf_get? {α : Type} [DecidableEq α] {l : List α} {k : Nat} {v : α}
    (hnod : l.Nodup) (h : l.get? k = some v) : idxOf l v = k := by
  induction l generalizing k with
  | nil => cases h
  | cons a l ih =>
    cases k with
    | zero =>
      simp only [List.get?] at h
      cases h
      simp [idxOf]
    | succ k =>
      simp only [List.get?] at h
      have hv : v ∈ l := List.get?_mem h
      have hav : a ≠ v := fun e => (List.nodup_cons.mp hnod).1 (e ▸ hv)
      simp [idxOf, if_neg hav, ih (List.nodup_cons.mp hnod).2 h]

/-! Facts about the arena lookup and the id bounds. -/

theorem lookup_mem {l : List (Nat × OpData)} {i : Nat}
    (h : i ∈ l.map (fun p => p.1)) : (i, lookupOp l i) ∈ l := by
  induction l with
  | nil => cases h
  | cons p rest ih =>
    by_cases hp : p.1 = i
    · subst hp
      have he : lookupOp (p :: rest) p.1 = p.2 := by simp [lookupOp]
      rw [he]
      exact List.mem_cons_self p rest
    · right
      have : i ∈ rest.map (fun p => p.1) := by
        rcases List.mem_map.mp h with ⟨q, hq, hqi⟩
        rcases List.mem_cons.mp hq with rfl | hq'
        · exact absurd hqi hp
        · exact List.mem_map.mpr ⟨q, hq', hqi⟩
      simpa [lookupOp, if_neg hp] using ih this

theorem lookupOp_append_left {l l2 : List (Nat × OpData)} {i : Nat}
    (h : i ∈ l.map (fun p => p.1)) :
    lookupOp (l ++ l2) i = lookupOp l i := by
  induction l with
  | nil => cases h
  | cons p rest ih =>
    by_cases hp : p.1 = i
    · simp [lookupOp, if_pos hp]
    · have : i ∈ rest.map (fun p => p.1) := by
        rcases List.mem_map.mp h with ⟨q, hq, hqi⟩
        rcases List.mem_cons.mp hq with rfl | hq'
        · exact absurd hqi hp
        · exact List.mem_map.mpr ⟨q, hq', hqi⟩
      simp [lookupOp, if_neg hp, ih this]

theorem lookupOp_append_right {l l2 : List (Nat × OpData)} {i : Nat}
    (h : i ∉ l.map (fun p => p.1)) :
    lookupOp (l ++ l2) i = lookupOp l2 i := by
  induction l with
  | nil => rfl
  | cons p rest ih =>
    have hp : p.1 ≠ i := fun e =>
      h (List.mem_map.mpr ⟨p, List.mem_cons_self p rest, e⟩)
    have : i ∉ rest.map (fun p => p.1) := fun e => by
      rcases List.mem_map.mp e with ⟨q, hq, hqi⟩
      exact h (List.mem_map.mpr ⟨q, List.mem_cons_of_mem p hq, hqi⟩)
    simp [lookupOp, if_neg hp, ih this]

theorem lookupOp_map {l : List (Nat × OpData)} {i : Nat}
    (F : Nat → OpData → OpData) (h : i ∈ l.map (fun p => p.1)) :
    lookupOp (l.map (fun p => (p.1, F p.1 p.2))) i = F i (lookupOp l i) := by
  induction l with
  | nil => cases h
  | cons p rest ih =>
    by_cases hp : p.1 = i
    · simp [lookupOp, List.map_cons, if_pos hp, hp]
    · have : i ∈ rest.map (fun p => p.1) := by
        rcases List.mem_map.mp h with ⟨q, hq, hqi⟩
        rcases List.mem_cons.mp hq with rfl | hq'
        · exact absurd hqi hp
        · exact List.mem_map.mpr ⟨q, hq', hqi⟩
      simp [lookupOp, List.map_cons, if_neg hp, ih this]

theorem map_fst_map_entry {l : List (Nat × OpData)} (F : Nat → OpData → OpData) :
    (l.map (fun p => (p.1, F p.1 p.2))).map (fun p => p.1)
      = l.map (fun p => p.1) := by
  induction l with
  | nil => rfl
  | cons p rest ih => simp [ih]

theorem foldl_max_init : ∀ (l : List Nat) (a : Nat), a ≤ l.foldl max a := by
  intro l
  induction l with
  | nil => intro a; exact Nat.le_refl a
  | cons b l ih =>
    intro a
    exact Nat.le_trans (Nat.le_max_left a b) (ih (max a b))

theorem foldl_max_mem {x : Nat} : ∀ (l : List Nat) (a : Nat), x ∈ l → x ≤ l.foldl max a := by
  intro l
  induction l with
  | nil => intro a h; cases h
  | cons b l ih =>
    intro a h
    rcases List.mem_cons.mp h with rfl | h'
    · exact Nat.le_trans (Nat.le_max_right a x) (foldl_max_init l (max a x))
    · exact ih (max a b) h'

theorem mem_arena_le_maxId {m : IRModule} {i : Nat}
    (h : i ∈ arenaIds m) : i ≤ maxId m :=
  foldl_max_mem (arenaIds m) 0 h

theorem freshId_not_arena {m : IRModule} : freshId m ∉ arenaIds m := by
  intro h
  have := mem_arena_le_maxId h
  simp [freshId] at this

theorem mem_results {m : IRModule} {i : Nat} {v : Val} :
    v ∈ results m i ↔ ∃ k, k < (m.get i).numResults ∧ v = Val.res i k := by
  constructor
  · intro h
    rcases List.mem_map.mp h with ⟨k, hk, rfl⟩
    exact ⟨k, List.mem_range.mp hk, rfl⟩
  · rintro ⟨k, hk, rfl⟩
    exact List.mem_map.mpr ⟨k, List.mem_range.mpr hk, rfl⟩

theorem mem_usersOf {m : IRModule} {u : Nat} {v : Val} :
    u ∈ usersOf m v ↔ ∃ d, (u, d) ∈ m.ops ∧ v ∈ d.operands := by
  simp only [usersOf, List.mem_map, List.mem_filter, melem_iff]
  constructor
  · rintro ⟨p, ⟨hp, hm⟩, rfl⟩
    exact ⟨p.2, hp, hm⟩
  · rintro ⟨d, hd, hm⟩
    exact ⟨(u, d), ⟨hd, hm⟩, rfl⟩

theorem usersOf_subset_arena {m : IRModule} {u : Nat} {v : Val}
    (h : u ∈ usersOf m v) : u ∈ arenaIds m := by
  rcases mem_usersOf.mp h with ⟨d, hd, _⟩
  exact List.mem_map.mpr ⟨(u, d), hd, rfl⟩

theorem wf_operand {m : IRModule} {u j k : Nat} {d : OpData}
    (hwf : WF m) (hu : (u, d) ∈ m.ops) (hop : Val.res j k ∈ d.operands) :
    j < u ∧ j ∈ arenaIds m := by
  have h1 := (List.all_eq_true.mp hwf.2) (u, d) hu
  have h2 := (List.all_eq_true.mp h1) (Val.res j k) hop
  simp only [wfVal, Bool.and_eq_true, decide_eq_true_eq, melem_iff] at h2
  exact h2

theorem get_entry_mem {m : IRModule} {i : Nat} (h : i ∈ arenaIds m) :
    (i, m.get i) ∈ m.ops :=
  lookup_mem h

/-! Master invariant of the head-set builder.  `B` is the boundary-input set
of the region under consideration, `used` the available-value set and `ord`
the acceptance-ordered collection of accepted operations (the global set
merged with the pending local set). -/

def ExtractInv (m : IRModule) (B : List Val) (used : List Val) (ord : List Nat) : Prop :=
  ord.Nodup ∧
  (∀ i ∈ ord, i ∈ arenaIds m) ∧
  (∀ v ∈ used, v ∈ B ∨ ∃ j, j ∈ ord ∧ ∃ k, v = Val.res j k) ∧
  (∀ i ∈ ord, (m.get i).tagged = true) ∧
  (∀ i ∈ ord, ∀ v ∈ (m.get i).operands, v ∈ used) ∧
  (∀ i ∈ ord, ∀ j k, Val.res j k ∈ (m.get i).operands →
      Val.res j k ∈ B ∨ (j ∈ ord ∧ idxOf ord j < idxOf ord i)) ∧
  (∀ i ∈ ord, ∀ v ∈ results m i, v ∈ used)

theorem record_cond {m : IRModule} {u : Nat}
    (hc : (HasOutsideCompilationAttribute m u && OpContainsOperandsFromSet m u used) = true) :
    (m.get u).tagged = true ∧ ∀ v ∈ (m.get u).operands, v ∈ used := by
  rcases Bool.and_eq_true _ _ |>.mp hc with ⟨h1, h2⟩
  constructor
  · simpa [HasOutsideCompilationAttribute] using h1
  · intro v hv
    exact melem_iff.mp ((List.all_eq_true.mp h2) v hv)

theorem record_inv {m : IRModule} {B : List Val} {G : List Nat} {u : Nat}
    (st : List Val × List Nat) (hu : u ∈ arenaIds m)
    (h : ExtractInv m B st.1 (mergeSV G st.2)) :
    ExtractInv m B (RecordOutsideCompiledOpsAndUsages m u st).1
      (mergeSV G (RecordOutsideCompiledOpsAndUsages m u st).2) := by
  cases hc : (HasOutsideCompilationAttribute m u && OpContainsOperandsFromSet m u st.1) with
  | false =>
    simpa [RecordOutsideCompiledOpsAndUsages, hc] using h
  | true =>
    rcases record_cond hc with ⟨htagu, hopsu⟩
    have hrw : RecordOutsideCompiledOpsAndUsages m u st
        = (mergeSV st.1 (results m u), insertSV st.2 u) := by
      simp [RecordOutsideCompiledOpsAndUsages, hc]
    rw [hrw]
    obtain ⟨hnod, harena, hused, htags, hop, hidx, hres⟩ := h
    rw [mergeSV_insertSV]
    by_cases hmem : u ∈ mergeSV G st.2
    · rw [insertSV_of_mem hmem]
      refine ⟨hnod, harena, ?_, htags, ?_, hidx, ?_⟩
      · intro v hv
        rcases mem_mergeSV.mp hv with hv | hv
        · exact hused v hv
        · rcases mem_results.mp hv with ⟨k, _, rfl⟩
          exact Or.inr ⟨u, hmem, k, rfl⟩
      · intro i hi v hv
        exact mem_mergeSV.mpr (Or.inl (hop i hi v hv))
      · intro i hi v hv
        exact mem_mergeSV.mpr (Or.inl (hres i hi v hv))
    · rw [insertSV_of_not_mem hmem]
      have hnod2 : (mergeSV G st.2 ++ [u]).Nodup := by
        have h2 := nodup_insertSV (a := u) hnod
        rwa [insertSV_of_not_mem hmem] at h2
      refine ⟨hnod2, ?_, ?_, ?_, ?_, ?_, ?_⟩
      · intro i hi
        rcases List.mem_append.mp hi with hi | hi
        · exact harena i hi
        · rw [List.mem_singleton.mp hi]; exact hu
      · intro v hv
        rcases mem_mergeSV.mp hv with hv | hv
        · rcases hused v hv with hv' | ⟨j, hj, k, rfl⟩
          · exact Or.inl hv'
          · exact Or.inr ⟨j, List.mem_append.mpr (Or.inl hj), k, rfl⟩
        · rcases mem_results.mp hv with ⟨k, _, rfl⟩
          exact Or.inr ⟨u, List.mem_append.mpr (Or.inr (List.mem_singleton.mpr rfl)), k, rfl⟩
      · intro i hi
        rcases List.mem_append.mp hi with hi | hi
        · exact htags i hi
        · rw [List.mem_singleton.mp hi]; exact htagu
      · intro i hi v hv
        rcases List.mem_append.mp hi with hi | hi
        · exact mem_mergeSV.mpr (Or.inl (hop i hi v hv))
        · rw [List.mem_singleton.mp hi] at hv
          exact mem_mergeSV.mpr (Or.inl (hopsu v hv))
      · intro i hi j k hjk
        rcases List.mem_append.mp hi with hi | hi
        · rcases hidx i hi j k hjk with hB | ⟨hj, hlt⟩
          · exact Or.inl hB
          · refine Or.inr ⟨List.mem_append.mpr (Or.inl hj), ?_⟩
            rw [idxOf_append_left [u] hj, idxOf_append_left [u] hi]
            exact hlt
        · rw [List.mem_singleton.mp hi] at hjk ⊢
          have hused2 := hused _ (hopsu _ hjk)
          rcases hused2 with hB | ⟨j', hj', k', heq⟩
          · exact Or.inl hB
          · have : j' = j := by
              cases heq
              rfl
            subst this
            refine Or.inr ⟨List.mem_append.mpr (Or.inl hj'), ?_⟩
            rw [idxOf_append_left [u] hj', idxOf_append_self hmem]
            exact idxOf_lt_length hj'
      · intro i hi v hv
        rcases List.mem_append.mp hi with hi | hi
        · exact mem_mergeSV.mpr (Or.inl (hres i hi v hv))
        · rw [List.mem_singleton.mp hi] at hv
          exact mem_mergeSV.mpr (Or.inr hv)

theorem record_local_sub {m : IRModule} {u : Nat} {st : List Val × List Nat} {x : Nat}
    (h : x ∈ (RecordOutsideCompiledOpsAndUsages m u st).2) : x ∈ st.2 ∨ x = u := by
  cases hc : (HasOutsideCompilationAttribute m u && OpContainsOperandsFromSet m u st.1) with
  | false =>
    simp only [RecordOutsideCompiledOpsAndUsages, hc] at h
    simp at h
    exact Or.inl h
  | true =>
    simp only [RecordOutsideCompiledOpsAndUsages, hc] at h
    simp at h
    exact mem_insertSV.mp h

theorem fold_record_inv {m : IRModule} {B : List Val} {G : List Nat} :
    ∀ (l : List Nat) (st : List Val × List Nat),
      (∀ u ∈ l, u ∈ arenaIds m) →
      ExtractInv m B st.1 (mergeSV G st.2) →
      ExtractInv m B
        (l.foldl (fun s u => RecordOutsideCompiledOpsAndUsages m u s) st).1
        (mergeSV G (l.foldl (fun s u => RecordOutsideCompiledOpsAndUsages m u s) st).2) := by
  intro l
  induction l with
  | nil => intro st _ h; exact h
  | cons a l ih =>
    intro st hl h
    simp only [List.foldl_cons]
    exact ih _ (fun u hu => hl u (List.mem_cons_of_mem a hu))
      (record_inv st (hl a (List.mem_cons_self a l)) h)

theorem fold_record_local {m : IRModule} :
    ∀ (l : List Nat) (st : List Val × List Nat) (x : Nat),
      x ∈ (l.foldl (fun s u => RecordOutsideCompiledOpsAndUsages m u s) st).2 →
      x ∈ st.2 ∨ x ∈ l := by
  intro l
  induction l with
  | nil => intro st x h; exact Or.inl h
  | cons a l ih =>
    intro st x h
    simp only [List.foldl_cons] at h
    rcases ih _ x h with h' | h'
    · rcases record_local_sub h' with h'' | rfl
      · exact Or.inl h''
      · exact Or.inr (List.mem_cons_self x l)
    · exact Or.inr (List.mem_cons_of_mem a h')

theorem extractLoop_nil {m : IRModule} (fuel : Nat) (used : List Val) (head : List Nat) :
    extractLoop m fuel used head [] = (used, head, []) := by
  cases fuel with
  | zero => rfl
  | succ fuel => simp [extractLoop]

theorem extractLoop_succ_ne {m : IRModule} {fuel : Nat} {used : List Val}
    {head round : List Nat} (hr : round ≠ []) :
    extractLoop m (fuel + 1) used head round
      = extractLoop m fuel (scanRound m round used).1 (mergeSV head round)
          (scanRound m round used).2 := by
  simp [extractLoop, hr]

theorem scanRound_inv {m : IRModule} {B used : List Val} {head round : List Nat}
    (h : ExtractInv m B used (mergeSV head round)) :
    ExtractInv m B (scanRound m round used).1
      (mergeSV (mergeSV head round) (scanRound m round used).2) := by
  unfold scanRound
  refine fold_record_inv _ _ ?_ ?_
  · intro u hu
    rcases List.mem_flatMap.mp hu with ⟨r, _, hr⟩
    exact usersOf_subset_arena hr
  · simpa [mergeSV_nil] using h

theorem scanRound_local {m : IRModule} {used : List Val} {round : List Nat} {x : Nat}
    (h : x ∈ (scanRound m round used).2) :
    ∃ b ∈ round, ∃ k, x ∈ usersOf m (Val.res b k) := by
  unfold scanRound at h
  rcases fold_record_local _ _ _ h with h' | h'
  · cases h'
  · rcases List.mem_flatMap.mp h' with ⟨r, hr, hx⟩
    rcases List.mem_flatMap.mp hr with ⟨b, hb, hrb⟩
    rcases mem_results.mp hrb with ⟨k, _, rfl⟩
    exact ⟨b, hb, k, hx⟩

theorem extractLoop_inv {m : IRModule} {B : List Val} :
    ∀ (fuel : Nat) (used : List Val) (head round : List Nat),
      ExtractInv m B used (mergeSV head round) →
      ExtractInv m B (extractLoop m fuel used head round).1
        (mergeSV (extractLoop m fuel used head round).2.1
          (extractLoop m fuel used head round).2.2) := by
  intro fuel
  induction fuel with
  | zero => intro used head round h; exact h
  | succ fuel ih =>
    intro used head round h
    by_cases hr : round = []
    · subst hr
      rw [extractLoop_nil]
      exact h
    · rw [extractLoop_succ_ne hr]
      exact ih _ _ _ (scanRound_inv h)

theorem extractLoop_round_nil {m : IRModule} (hwf : WF m) :
    ∀ (fuel n : Nat) (used : List Val) (head round : List Nat),
      (∀ i ∈ round, i ∈ arenaIds m) →
      (∀ i ∈ round, n ≤ i) →
      maxId m + 2 ≤ fuel + n →
      (extractLoop m fuel used head round).2.2 = [] := by
  intro fuel
  induction fuel with
  | zero =>
    intro n used head round harena hn hfuel
    have hnil : round = [] := by
      cases round with
      | nil => rfl
      | cons a r =>
        exfalso
        have h1 := mem_arena_le_maxId (harena a (List.mem_cons_self a r))
        have h2 := hn a (List.mem_cons_self a r)
        omega
    subst hnil
    rfl
  | succ fuel ih =>
    intro n used head round harena hn hfuel
    by_cases hr : round = []
    · subst hr
      rw [extractLoop_nil]
    · rw [extractLoop_succ_ne hr]
      refine ih (n + 1) _ _ _ ?_ ?_ (by omega)
      · intro i hi
        rcases scanRound_local hi with ⟨b, _, k, hu⟩
        exact usersOf_subset_arena hu
      · intro i hi
        rcases scanRound_local hi with ⟨b, hb, k, hu⟩
        rcases mem_usersOf.mp hu with ⟨d, hd, hop⟩
        have h1 := (wf_operand hwf hd hop).1
        have h2 := hn b hb
        omega

theorem extract_full_round_nil {m : IRModule} (hwf : WF m)
    (st : List Val × List Nat) (v : Val) :
    (ExtractConnectedToHeadFull m (fuelBound m) st v).2.2 = [] := by
  unfold ExtractConnectedToHeadFull
  refine extractLoop_round_nil hwf _ 0 _ _ _ ?_ ?_ (by simp [fuelBound])
  · intro i hi
    rcases fold_record_local _ _ _ hi with h' | h'
    · cases h'
    · exact usersOf_subset_arena h'
  · intro i _
    exact Nat.zero_le i

theorem extract_inv {m : IRModule} {B : List Val} (hwf : WF m)
    (st : List Val × List Nat) (v : Val)
    (h : ExtractInv m B st.1 st.2) :
    ExtractInv m B (ExtractOutsideCompiledOpsConnectedToHead m (fuelBound m) st v).1
      (ExtractOutsideCompiledOpsConnectedToHead m (fuelBound m) st v).2 := by
  have hnil := extract_full_round_nil hwf st v
  unfold ExtractConnectedToHeadFull at hnil
  unfold ExtractOutsideCompiledOpsConnectedToHead ExtractConnectedToHeadFull
  have hp : ExtractInv m B
      ((usersOf m v).foldl (fun s u => RecordOutsideCompiledOpsAndUsages m u s) (st.1, [])).1
      (mergeSV st.2
        ((usersOf m v).foldl (fun s u => RecordOutsideCompiledOpsAndUsages m u s) (st.1, [])).2) := by
    refine fold_record_inv _ _ ?_ ?_
    · intro u hu
      exact usersOf_subset_arena hu
    · simpa [mergeSV_nil] using h
  have hloop := extractLoop_inv (fuelBound m)
    ((usersOf m v).foldl (fun s u => RecordOutsideCompiledOpsAndUsages m u s) (st.1, [])).1
    st.2
    ((usersOf m v).foldl (fun s u => RecordOutsideCompiledOpsAndUsages m u s) (st.1, [])).2
    hp
  rw [hnil, mergeSV_nil] at hloop
  exact hloop

theorem identify_inv {m : IRModule} (hwf : WF m) (c : Nat) :
    ExtractInv m (getUsedValuesDefinedAbove m c)
      (IdentifyOutsideCompiledOpsAtHead m c).1
      (IdentifyOutsideCompiledOpsAtHead m c).2 := by
  have base : ExtractInv m (getUsedValuesDefinedAbove m c)
      (getUsedValuesDefinedAbove m c) [] := by
    refine ⟨List.nodup_nil, ?_, ?_, ?_, ?_, ?_, ?_⟩
    · intro i hi; cases hi
    · intro v hv; exact Or.inl hv
    · intro i hi; cases hi
    · intro i hi; cases hi
    · intro i hi; cases hi
    · intro i hi; cases hi
  have main : ∀ (l : List Val) (st : List Val × List Nat),
      ExtractInv m (getUsedValuesDefinedAbove m c) st.1 st.2 →
      ExtractInv m (getUsedValuesDefinedAbove m c)
        (l.foldl (ExtractOutsideCompiledOpsConnectedToHead m (fuelBound m)) st).1
        (l.foldl (ExtractOutsideCompiledOpsConnectedToHead m (fuelBound m)) st).2 := by
    intro l
    induction l with
    | nil => intro st h; exact h
    | cons a l ih =>
      intro st h
      simp only [List.foldl_cons]
      exact ih _ (extract_inv hwf st a h)
  exact main (getUsedValuesDefinedAbove m c) (getUsedValuesDefinedAbove m c, []) base

/-! A lighter invariant: every op ever accepted by the head-set builder
passed the `HasOutsideCompilationAttribute` test.  This needs no
well-formedness hypothesis at all. -/

def AllTagged (m : IRModule) (l : List Nat) : Prop :=
  ∀ i ∈ l, (m.get i).tagged = true

theorem record_tagged {m : IRModule} {u : Nat} {st : List Val × List Nat}
    (h : AllTagged m st.2) :
    AllTagged m (RecordOutsideCompiledOpsAndUsages m u st).2 := by
  cases hc : (HasOutsideCompilationAttribute m u && OpContainsOperandsFromSet m u st.1) with
  | false =>
    simpa [RecordOutsideCompiledOpsAndUsages, hc] using h
  | true =>
    have htag := (record_cond hc).1
    simp only [RecordOutsideCompiledOpsAndUsages, hc, if_true]
    intro i hi
    rcases mem_insertSV.mp hi with hi | rfl
    · exact h i hi
    · exact htag

theorem fold_record_tagged {m : IRModule} :
    ∀ (l : List Nat) (st : List Val × List Nat),
      AllTagged m st.2 →
      AllTagged m (l.foldl (fun s u => RecordOutsideCompiledOpsAndUsages m u s) st).2 := by
  intro l
  induction l with
  | nil => intro st h; exact h
  | cons a l ih =>
    intro st h
    simp only [List.foldl_cons]
    exact ih _ (record_tagged h)

theorem mergeSV_tagged {m : IRModule} {l xs : List Nat}
    (hl : AllTagged m l) (hxs : AllTagged m xs) : AllTagged m (mergeSV l xs) := by
  intro i hi
  rcases mem_mergeSV.mp hi with hi | hi
  · exact hl i hi
  · exact hxs i hi

theorem extractLoop_tagged {m : IRModule} :
    ∀ (fuel : Nat) (used : List Val) (head round : List Nat),
      AllTagged m head → AllTagged m round →
      AllTagged m (extractLoop m fuel used head round).2.1 := by
  intro fuel
  induction fuel with
  | zero => intro used head round hh _; exact hh
  | succ fuel ih =>
    intro used head round hh hr
    by_cases hrr : round = []
    · subst hrr
      rw [extractLoop_nil]
      exact hh
    · rw [extractLoop_succ_ne hrr]
      refine ih _ _ _ (mergeSV_tagged hh hr) ?_
      have h0 : AllTagged m ([] : List Nat) := by intro i hi; cases hi
      exact fold_record_tagged _ _ h0

theorem extract_tagged {m : IRModule} (st : List Val × List Nat) (fuel : Nat) (v : Val)
    (h : AllTagged m st.2) :
    AllTagged m (ExtractOutsideCompiledOpsConnectedToHead m fuel st v).2 := by
  unfold ExtractOutsideCompiledOpsConnectedToHead ExtractConnectedToHeadFull
  refine extractLoop_tagged fuel _ _ _ h ?_
  have h0 : AllTagged m ([] : List Nat) := by intro i hi; cases hi
  exact fold_record_tagged _ _ h0

theorem identify_tagged (m : IRModule) (c : Nat) :
    AllTagged m (IdentifyOutsideCompiledOpsAtHead m c).2 := by
  have main : ∀ (l : List Val) (st : List Val × List Nat),
      AllTagged m st.2 →
      AllTagged m (l.foldl (ExtractOutsideCompiledOpsConnectedToHead m (fuelBound m)) st).2 := by
    intro l
    induction l with
    | nil => intro st h; exact h
    | cons a l ih =>
      intro st h
      simp only [List.foldl_cons]
      exact ih _ (extract_tagged st (fuelBound m) a h)
  refine main _ _ ?_
  intro i hi
  cases hi

/-! Facts about the region mutation `IsolateHeadExtractedOpsToLaunchOp`. -/

theorem isolate_nil (m : IRModule) (c : Nat) :
    IsolateHeadExtractedOpsToLaunchOp m c [] = (m, none) := rfl

theorem isolate_ne {m : IRModule} {c : Nat} {head : List Nat} (hne : head ≠ []) :
    IsolateHeadExtractedOpsToLaunchOp m c head =
      ({ ops := m.ops.map
            (isolateEntry head (GetHeadExtractedClusterOutputs m head) (freshId m) c)
          ++ [(freshId m, ⟨OpKind.launch, [],
                (GetHeadExtractedClusterOutputs m head).length, false,
                head ++ [freshId m + 1]⟩),
              (freshId m + 1, ⟨OpKind.ret,
                GetHeadExtractedClusterOutputs m head, 0, false, []⟩)],
         top := insertBeforeId (m.top.filter (fun i => !melem i head)) c (freshId m) },
       some (freshId m)) := by
  simp [IsolateHeadExtractedOpsToLaunchOp, hne]

theorem isolateEntry_eq (head : List Nat) (outs : List Val) (launchId c : Nat) :
    isolateEntry head outs launchId c
      = fun p => (p.1, isolateData head outs launchId c p.1 p.2) := rfl

theorem keys_map_isolate {head : List Nat} {outs : List Val} {launchId c : Nat}
    (l : List (Nat × OpData)) :
    (l.map (isolateEntry head outs launchId c)).map (fun p => p.1)
      = l.map (fun p => p.1) := by
  rw [isolateEntry_eq]
  exact map_fst_map_entry (isolateData head outs launchId c)

theorem isolate_get_orig {m : IRModule} {c : Nat} {head : List Nat}
    (hne : head ≠ []) {i : Nat} (hi : i ∈ arenaIds m) :
    (IsolateHeadExtractedOpsToLaunchOp m c head).1.get i
      = isolateData head (GetHeadExtractedClusterOutputs m head) (freshId m) c i
          (m.get i) := by
  rw [isolate_ne hne]
  show lookupOp _ i = _
  rw [lookupOp_append_left (by rwa [keys_map_isolate])]
  rw [isolateEntry_eq]
  exact lookupOp_map (isolateData head (GetHeadExtractedClusterOutputs m head)
    (freshId m) c) hi

theorem isolate_get_launch {m : IRModule} {c : Nat} {head : List Nat}
    (hne : head ≠ []) :
    (IsolateHeadExtractedOpsToLaunchOp m c head).1.get (freshId m)
      = ⟨OpKind.launch, [], (GetHeadExtractedClusterOutputs m head).length, false,
          head ++ [freshId m + 1]⟩ := by
  rw [isolate_ne hne]
  show lookupOp _ (freshId m) = _
  rw [lookupOp_append_right (by rw [keys_map_isolate]; exact freshId_not_arena)]
  simp [lookupOp]

theorem isolate_launch_body {m : IRModule} {c : Nat} {head : List Nat}
    (hne : head ≠ []) :
    ((IsolateHeadExtractedOpsToLaunchOp m c head).1.get (freshId m)).body
      = head ++ [freshId m + 1] := by
  rw [isolate_get_launch hne]

theorem isolateData_body (head : List Nat) (outs : List Val) (launchId c i : Nat)
    (d : OpData) :
    (isolateData head outs launchId c i d).body
      = insertBeforeId (d.body.filter (fun j => !melem j head)) c launchId := by
  unfold isolateData
  by_cases hm : melem i head
  · simp [hm]
  · simp [hm]

theorem isolateData_operands_of_head (head : List Nat) (outs : List Val)
    (launchId c i : Nat) (d : OpData) (hm : i ∈ head) :
    (isolateData head outs launchId c i d).operands = d.operands := by
  unfold isolateData
  simp [melem_iff.mpr hm]

theorem isolateData_operands_of_not_head (head : List Nat) (outs : List Val)
    (launchId c i : Nat) (d : OpData) (hm : i ∉ head) :
    (isolateData head outs launchId c i d).operands
      = d.operands.map (rewireVal outs launchId) := by
  unfold isolateData
  have : melem i head = false := by
    cases hh : melem i head
    · rfl
    · exact absurd (melem_iff.mp hh) hm
  simp [this]

theorem insertBeforeId_not_mem {blk : List Nat} {c x : Nat} (h : c ∉ blk) :
    insertBeforeId blk c x = blk := by
  induction blk with
  | nil => rfl
  | cons a t ih =>
    have hac : a ≠ c := fun e => h (e ▸ List.mem_cons_self a t)
    have h' : c ∉ t := fun e => h (List.mem_cons_of_mem a e)
    simp only [insertBeforeId, List.flatMap_cons, if_neg hac]
    have := ih h'
    simp only [insertBeforeId] at this
    rw [this]
    rfl

/-! Facts about the output classifier `GetHeadExtractedClusterOutputs`. -/

/-- The per-op block contributed to the output list, with the head-set
membership test fixed to `full` (used to recurse over a sublist of the head
set while testing against the whole head set). -/
def outputsAux (m : IRModule) (full l : List Nat) : List Val :=
  l.flatMap (fun i =>
    if (results m i).any (fun r => (usersOf m r).any (fun u => !melem u full))
    then results m i else [])

theorem outputs_eq_aux (m : IRModule) (l : List Nat) :
    GetHeadExtractedClusterOutputs m l = outputsAux m l l := rfl

theorem mem_outputsAux {m : IRModule} {full l : List Nat} {x : Val}
    (h : x ∈ outputsAux m full l) : ∃ j ∈ l, ∃ k, x = Val.res j k := by
  rcases List.mem_flatMap.mp h with ⟨j, hj, hx⟩
  by_cases hc : (results m j).any
      (fun r => (usersOf m r).any (fun u => !melem u full)) = true
  · rw [if_pos hc] at hx
    rcases mem_results.mp hx with ⟨k, _, rfl⟩
    exact ⟨j, hj, k, rfl⟩
  · rw [if_neg hc] at hx
    cases hx

theorem mem_outputs {m : IRModule} {l : List Nat} {x : Val}
    (h : x ∈ GetHeadExtractedClusterOutputs m l) :
    ∃ j ∈ l, ∃ k, x = Val.res j k := by
  rw [outputs_eq_aux] at h
  exact mem_outputsAux h

theorem results_nodup (m : IRModule) (i : Nat) : (results m i).Nodup := by
  refine List.Nodup.map ?_ (List.nodup_range _)
  intro a b e
  cases e
  rfl

theorem outputsAux_nodup {m : IRModule} {full : List Nat} :
    ∀ {l : List Nat}, l.Nodup → (outputsAux m full l).Nodup := by
  intro l
  induction l with
  | nil => intro h; exact List.nodup_nil
  | cons a t ih =>
    intro h
    rcases List.nodup_cons.mp h with ⟨hat, ht⟩
    show ((if (results m a).any
        (fun r => (usersOf m r).any (fun u => !melem u full))
        then results m a else []) ++ outputsAux m full t).Nodup
    refine List.Nodup.append ?_ (ih ht) ?_
    · by_cases hc : (results m a).any
          (fun r => (usersOf m r).any (fun u => !melem u full)) = true
      · rw [if_pos hc]; exact results_nodup m a
      · rw [if_neg hc]; exact List.nodup_nil
    · intro x hx hx'
      rcases mem_outputsAux hx' with ⟨j, hj, k, rfl⟩
      by_cases hc : (results m a).any
          (fun r => (usersOf m r).any (fun u => !melem u full)) = true
      · rw [if_pos hc] at hx
        rcases mem_results.mp hx with ⟨k', _, he⟩
        have hja : j = a := by cases he; rfl
        exact hat (hja ▸ hj)
      · rw [if_neg hc] at hx
        cases hx

theorem outputs_nodup {m : IRModule} {l : List Nat} (h : l.Nodup) :
    (GetHeadExtractedClusterOutputs m l).Nodup := by
  rw [outputs_eq_aux]
  exact outputsAux_nodup h

theorem exporting_iff {m : IRModule} {head : List Nat} {i : Nat} :
    ((results m i).any (fun r => (usersOf m r).any (fun u => !melem u head)) = true)
      ↔ ∃ r ∈ results m i, ∃ u ∈ usersOf m r, u ∉ head := by
  simp [List.any_eq_true, melem]

theorem flatMap_infix {α β : Type} (f : α → List β) :
    ∀ (l : List α) (a : α), a ∈ l → f a <:+: l.flatMap f := by
  intro l
  induction l with
  | nil => intro a h; cases h
  | cons b t ih =>
    intro a h
    rcases List.mem_cons.mp h with rfl | h'
    · exact ⟨[], t.flatMap f, by rw [List.flatMap_cons]; rfl⟩
    · rcases ih a h' with ⟨s, t2, ht⟩
      exact ⟨f b ++ s, t2, by rw [List.flatMap_cons, ← ht]; simp [List.append_assoc]⟩

theorem boundary_not_region {m : IRModule} {c j k : Nat}
    (h : Val.res j k ∈ getUsedValuesDefinedAbove m c) : j ∉ regionOps m c := by
  intro hreg
  simp only [getUsedValuesDefinedAbove, dedupSV] at h
  rcases mem_mergeSV.mp h with h' | h'
  · cases h'
  · rcases List.mem_flatMap.mp h' with ⟨i, _, hx⟩
    have hdef := (List.mem_filter.mp hx).2
    simp only [definedOutside] at hdef
    rw [melem_iff.mpr hreg] at hdef
    cases hdef

theorem foldl_process_empty {m : IRModule} :
    ∀ (l : List Nat), (∀ c ∈ l, (IdentifyOutsideCompiledOpsAtHead m c).2 = []) →
      l.foldl processCluster m = m := by
  intro l
  induction l with
  | nil => intro _; rfl
  | cons a t ih =>
    intro h
    simp only [List.foldl_cons]
    have ha : processCluster m a = m := by
      unfold processCluster
      rw [h a (List.mem_cons_self a t), isolate_nil]
    rw [ha]
    exact ih (fun c hc => h c (List.mem_cons_of_mem a hc))

/-! Claim theorems. -/

/-- C1, counterexample: on `demoEmptyOutputs` the head set is `{0}` and the
output list is empty, yet a Host Region (launch op 3) is created and op 0 is
moved out of the Device Region body, contradicting the claimed no-op. -/
theorem claimC1_cex :
    (IdentifyOutsideCompiledOpsAtHead demoEmptyOutputs 1).2 = [0] ∧
    GetHeadExtractedClusterOutputs demoEmptyOutputs [0] = [] ∧
    (IsolateHeadExtractedOpsToLaunchOp demoEmptyOutputs 1 [0]).2 = some 3 ∧
    ((processCluster demoEmptyOutputs 1).get 1).body
      ≠ (demoEmptyOutputs.get 1).body := by
  decide

/-- C1 (amended): a Host Region is omitted only when the head set itself is
empty; with a non-empty head set, the pass creates a Host Region (even when
the output list is empty) and removes the head-set ops from the Device
Region's body. -/
theorem claimC1_thm (m : IRModule) (c : Nat) :
    IsolateHeadExtractedOpsToLaunchOp m c [] = (m, none) ∧
    (∀ head : List Nat, head ≠ [] → c ∈ arenaIds m → c ∉ (m.get c).body →
      (IsolateHeadExtractedOpsToLaunchOp m c head).2 = some (freshId m) ∧
      ((IsolateHeadExtractedOpsToLaunchOp m c head).1.get c).body
        = (m.get c).body.filter (fun j => !melem j head)) := by
  refine ⟨isolate_nil m c, ?_⟩
  intro head hne hc hcb
  constructor
  · rw [isolate_ne hne]
  · rw [isolate_get_orig hne hc, isolateData_body]
    refine insertBeforeId_not_mem ?_
    intro hmem
    exact hcb (List.mem_filter.mp hmem).1

/-- C1, witness of the amended theorem on `demoEmptyOutputs`. -/
theorem claimC1_witness :
    (IsolateHeadExtractedOpsToLaunchOp demoEmptyOutputs 1 [0]).2
        = some (freshId demoEmptyOutputs) ∧
      ((IsolateHeadExtractedOpsToLaunchOp demoEmptyOutputs 1 [0]).1.get 1).body
        = (demoEmptyOutputs.get 1).body.filter (fun j => !melem j [0]) :=
  (claimC1_thm demoEmptyOutputs 1).2 [0] (by decide) (by decide) (by decide)

/-- C2, counterexample: on `demoReordered` ops 1 and 2 are both moved, op 1
precedes op 2 in the original Device Region body, but op 2 precedes op 1 in
the new Host Region body (acceptance happens in rounds `{0, 2}` then `{1}`). -/
theorem claimC2_cex :
    (IdentifyOutsideCompiledOpsAtHead demoReordered 3).2 = [0, 2, 1] ∧
    idxOf ((demoReordered.get 3).body) 1 < idxOf ((demoReordered.get 3).body) 2 ∧
    idxOf (((processCluster demoReordered 3).get 5).body) 2
      < idxOf (((processCluster demoReordered 3).get 5).body) 1 := by
  decide

/-- C2 (amended): the relative order of two moved operations in the Host
Region body equals their relative order of acceptance into the head set (the
`SetVector` insertion order), which need not be the original body order. -/
theorem claimC2_thm (m : IRModule) (c : Nat) (head : List Nat) (hne : head ≠ [])
    (i : Nat) (hi : i ∈ head) (j : Nat) (hj : j ∈ head) :
    (idxOf (((IsolateHeadExtractedOpsToLaunchOp m c head).1.get (freshId m)).body) i
        < idxOf (((IsolateHeadExtractedOpsToLaunchOp m c head).1.get (freshId m)).body) j
      ↔ idxOf head i < idxOf head j) := by
  rw [isolate_launch_body hne, idxOf_append_left _ hi, idxOf_append_left _ hj]

/-- C2, witness of the amended theorem on `demoReordered`. -/
theorem claimC2_witness :
    (idxOf (((IsolateHeadExtractedOpsToLaunchOp demoReordered 3 [0, 2, 1]).1.get
          (freshId demoReordered)).body) 0
        < idxOf (((IsolateHeadExtractedOpsToLaunchOp demoReordered 3 [0, 2, 1]).1.get
          (freshId demoReordered)).body) 2
      ↔ idxOf [0, 2, 1] 0 < idxOf [0, 2, 1] 2) :=
  claimC2_thm demoReordered 3 [0, 2, 1] (by decide) 0 (by decide) 2 (by decide)

/-- C3: every operand of every head-set operation is either a boundary input
of the region or a result of another (strictly earlier) head-set operation. -/
theorem claimC3_thm (m : IRModule) (c : Nat) (hwf : WF m) (i : Nat)
    (hi : i ∈ (IdentifyOutsideCompiledOpsAtHead m c).2)
    (v : Val) (hv : v ∈ (m.get i).operands) :
    v ∈ getUsedValuesDefinedAbove m c ∨
      ∃ j, j ∈ (IdentifyOutsideCompiledOpsAtHead m c).2 ∧ j ≠ i ∧
        ∃ k, v = Val.res j k := by
  obtain ⟨hnod, harena, hused, htags, hop, hidx, hres⟩ := identify_inv hwf c
  have hvu := hop i hi v hv
  rcases hused v hvu with hB | ⟨j, hj, k, rfl⟩
  · exact Or.inl hB
  · refine Or.inr ⟨j, hj, ?_, k, rfl⟩
    have hie := get_entry_mem (harena i hi)
    have hlt := (wf_operand hwf hie hv).1
    omega

/-- C3, witness on `demoReordered` at head-set op 1 and operand `res 0 0`. -/
theorem claimC3_witness :
    Val.res 0 0 ∈ getUsedValuesDefinedAbove demoReordered 3 ∨
      ∃ j, j ∈ (IdentifyOutsideCompiledOpsAtHead demoReordered 3).2 ∧ j ≠ 1 ∧
        ∃ k, Val.res 0 0 = Val.res j k :=
  claimC3_thm demoReordered 3 (by decide) 1 (by decide) (Val.res 0 0) (by decide)

/-- C4: every operation in a computed head set carries the
`_xla_outside_compilation` attribute (no well-formedness needed). -/
theorem claimC4_thm (m : IRModule) (c : Nat) (i : Nat)
    (hi : i ∈ (IdentifyOutsideCompiledOpsAtHead m c).2) :
    HasOutsideCompilationAttribute m i = true :=
  identify_tagged m c i hi

/-- C4, witness on `demoEmptyOutputs`. -/
theorem claimC4_witness :
    HasOutsideCompilationAttribute demoEmptyOutputs 0 = true :=
  claimC4_thm demoEmptyOutputs 1 0 (by decide)

/-- C7: when the Device Metadata Provider fails, the pass signals failure and
returns the module untouched — no cluster anywhere is processed. -/
theorem claimC7_thm (m : IRModule) : runOnOperation false m = (false, m) := rfl

/-- C9: for a well-formed (acyclic, def-before-use) module the worklist loop
of the head-set builder empties its round within the provided fuel, for every
seed value and every incoming state. -/
theorem claimC9_thm (m : IRModule) (hwf : WF m) (st : List Val × List Nat)
    (v : Val) :
    (ExtractConnectedToHeadFull m (fuelBound m) st v).2.2 = [] :=
  extract_full_round_nil hwf st v

/-- C9, witness on `demoSecondRun` seeded from its boundary input. -/
theorem claimC9_witness :
    (ExtractConnectedToHeadFull demoSecondRun (fuelBound demoSecondRun)
        (getUsedValuesDefinedAbove demoSecondRun 2, []) (Val.ext 0)).2.2 = [] :=
  claimC9_thm demoSecondRun (by decide)
    (getUsedValuesDefinedAbove demoSecondRun 2, []) (Val.ext 0)

/-- C5: an exporting head-set operation contributes its full result list, in
natural result order, as a contiguous block of the output list; an operation
whose results are all consumed within the head set contributes nothing. -/
theorem claimC5_thm (m : IRModule) (head : List Nat) (i : Nat) (hi : i ∈ head) :
    ((∃ r ∈ results m i, ∃ u ∈ usersOf m r, u ∉ head) →
      results m i <:+: GetHeadExtractedClusterOutputs m head) ∧
    ((∀ r ∈ results m i, ∀ u ∈ usersOf m r, u ∈ head) →
      ∀ k, Val.res i k ∉ GetHeadExtractedClusterOutputs m head) := by
  constructor
  · intro hex
    have hc : (results m i).any
        (fun r => (usersOf m r).any (fun u => !melem u head)) = true :=
      exporting_iff.mpr hex
    have hinf := flatMap_infix
      (fun i' => if (results m i').any
          (fun r => (usersOf m r).any (fun u => !melem u head))
        then results m i' else []) head i hi
    simp only [if_pos hc] at hinf
    exact hinf
  · intro hall k hk
    rw [outputs_eq_aux] at hk
    rcases List.mem_flatMap.mp hk with ⟨j, hj, hx⟩
    by_cases hc : (results m j).any
        (fun r => (usersOf m r).any (fun u => !melem u head)) = true
    · rw [if_pos hc] at hx
      rcases mem_results.mp hx with ⟨k', _, he⟩
      have hji : j = i := by cases he; rfl
      subst hji
      rcases exporting_iff.mp hc with ⟨r, hr, u, hu, hout⟩
      exact hout (hall r hr u hu)
    · rw [if_neg hc] at hx
      cases hx

/-- C5, witness on `demoReordered`: op 2 exports, so its results form an
infix block of the output list. -/
theorem claimC5_witness :
    results demoReordered 2 <:+:
      GetHeadExtractedClusterOutputs demoReordered [0, 2, 1] :=
  (claimC5_thm demoReordered [0, 2, 1] 2 (by decide)).1 (by decide)

/-- C6: after the mutation, for every pre-existing operation: a use-site of
the k-th output value owned by an op outside the head set now references the
k-th launch result, while the operand lists of head-set ops are unchanged. -/
theorem claimC6_thm (m : IRModule) (c : Nat) (hwf : WF m)
    (hne : (IdentifyOutsideCompiledOpsAtHead m c).2 ≠ [])
    (i : Nat) (hi : i ∈ arenaIds m) :
    (i ∉ (IdentifyOutsideCompiledOpsAtHead m c).2 →
      ∀ slot k v,
        (GetHeadExtractedClusterOutputs m
            (IdentifyOutsideCompiledOpsAtHead m c).2).get? k = some v →
        (m.get i).operands.get? slot = some v →
        ((IsolateHeadExtractedOpsToLaunchOp m c
            (IdentifyOutsideCompiledOpsAtHead m c).2).1.get i).operands.get? slot
          = some (Val.res (freshId m) k)) ∧
    (i ∈ (IdentifyOutsideCompiledOpsAtHead m c).2 →
      ((IsolateHeadExtractedOpsToLaunchOp m c
          (IdentifyOutsideCompiledOpsAtHead m c).2).1.get i).operands
        = (m.get i).operands) := by
  have hnod : (IdentifyOutsideCompiledOpsAtHead m c).2.Nodup := (identify_inv hwf c).1
  constructor
  · intro hih slot k v hk hslot
    rw [isolate_get_orig hne hi,
      isolateData_operands_of_not_head _ _ _ _ _ _ hih, List.get?_map, hslot]
    have hvmem : v ∈ GetHeadExtractedClusterOutputs m
        (IdentifyOutsideCompiledOpsAtHead m c).2 := List.get?_mem hk
    have hrw : rewireVal
        (GetHeadExtractedClusterOutputs m (IdentifyOutsideCompiledOpsAtHead m c).2)
        (freshId m) v = Val.res (freshId m) k := by
      unfold rewireVal
      rw [if_pos (melem_iff.mpr hvmem), idxOf_get? (outputs_nodup hnod) hk]
    rw [Option.map_some', hrw]
  · intro hih
    rw [isolate_get_orig hne hi]
    exact isolateData_operands_of_head _ _ _ _ _ _ hih

/-- C6, witness on `demoReordered`: the untagged terminator op 4 held output
value `res 1 0` (output index 1) at operand slot 0; after mutation it reads
`res 5 1`, the launch result of the same index. -/
theorem claimC6_witness :
    ((IsolateHeadExtractedOpsToLaunchOp demoReordered 3
        (IdentifyOutsideCompiledOpsAtHead demoReordered 3).2).1.get 4).operands.get? 0
      = some (Val.res (freshId demoReordered) 1) :=
  (claimC6_thm demoReordered 3 (by decide) (by decide) 4 (by decide)).1
    (by decide) 0 1 (Val.res 1 0) (by decide) (by decide)

set_option maxHeartbeats 4000000 in
/-- C8, counterexample: one run of the pass on `demoSecondRun` moves the
tagged op 0 into a launch region but op 0 keeps its tag and still consumes
the boundary value `ext 0`, which the remaining cluster also uses; a second
run therefore computes a non-empty head set for the cluster and mutates the
graph again. -/
theorem claimC8_cex :
    (IdentifyOutsideCompiledOpsAtHead (runOnOperation true demoSecondRun).2 2).2 ≠ [] ∧
    (runOnOperation true (runOnOperation true demoSecondRun).2).2
      ≠ (runOnOperation true demoSecondRun).2 := by
  decide

/-- C8 (amended): a second run of the pass is a no-op exactly on modules all
of whose clusters have an empty computed head set; in general re-running is
not a no-op (see the counterexample). -/
theorem claimC8_thm (m : IRModule)
    (h : ∀ c ∈ clusters m, (IdentifyOutsideCompiledOpsAtHead m c).2 = []) :
    runOnOperation true m = (true, m) := by
  have hfold := foldl_process_empty (clusters m) h
  unfold runOnOperation
  rw [if_pos rfl, hfold]

/-- C8, witness: on a module with no tagged ops the pass is the identity. -/
theorem claimC8_witness : runOnOperation true demoUntagged = (true, demoUntagged) :=
  claimC8_thm demoUntagged (by decide)

set_option maxHeartbeats 2000000 in
/-- C10, counterexample: in `demoOutsideTagged` the tagged op 0 lies outside
the cluster and produces the boundary value `res 0 0`; its consumer op 1 is
accepted first, so the Host Region body places op 1 (the consumer) before
op 0 (the producer), violating def-before-use. -/
theorem claimC10_cex :
    (IdentifyOutsideCompiledOpsAtHead demoOutsideTagged 4).2 = [1, 0] ∧
    Val.res 0 0 ∈ (demoOutsideTagged.get 1).operands ∧
    idxOf (((processCluster demoOutsideTagged 4).get 5).body) 1
      < idxOf (((processCluster demoOutsideTagged 4).get 5).body) 0 := by
  decide

/-- C10 (amended): when every tagged op lies inside the Device Region (the
intended input class of the pass), the Host Region body satisfies
def-before-use: the producer of an operand of a moved op precedes it. -/
theorem claimC10_thm (m : IRModule) (c : Nat) (hwf : WF m)
    (htag : ∀ p ∈ m.ops, p.2.tagged = true → p.1 ∈ regionOps m c)
    (hne : (IdentifyOutsideCompiledOpsAtHead m c).2 ≠ [])
    (i : Nat) (hi : i ∈ (IdentifyOutsideCompiledOpsAtHead m c).2)
    (j : Nat) (hj : j ∈ (IdentifyOutsideCompiledOpsAtHead m c).2)
    (k : Nat) (hjk : Val.res j k ∈ (m.get i).operands) :
    idxOf (((IsolateHeadExtractedOpsToLaunchOp m c
        (IdentifyOutsideCompiledOpsAtHead m c).2).1.get (freshId m)).body) j
      < idxOf (((IsolateHeadExtractedOpsToLaunchOp m c
        (IdentifyOutsideCompiledOpsAtHead m c).2).1.get (freshId m)).body) i := by
  obtain ⟨hnod, harena, hused, htags, hop, hidx, hres⟩ := identify_inv hwf c
  rw [isolate_launch_body hne, idxOf_append_left _ hj, idxOf_append_left _ hi]
  rcases hidx i hi j k hjk with hB | ⟨_, hlt⟩
  · exfalso
    have hje := get_entry_mem (harena j hj)
    have htj := htags j hj
    have hreg := htag (j, m.get j) hje htj
    exact (boundary_not_region hB) hreg
  · exact hlt

/-- C10, witness on `demoReordered`: op 1 consumes `res 0 0` and indeed
follows op 0 in the Host Region body. -/
theorem claimC10_witness :
    idxOf (((IsolateHeadExtractedOpsToLaunchOp demoReordered 3
        (IdentifyOutsideCompiledOpsAtHead demoReordered 3).2).1.get
          (freshId demoReordered)).body) 0
      < idxOf (((IsolateHeadExtractedOpsToLaunchOp demoReordered 3
        (IdentifyOutsideCompiledOpsAtHead demoReordered 3).2).1.get
          (freshId demoReordered)).body) 1 :=
  claimC10_thm demoReordered 3 (by decide) (by decide) (by decide)
    1 (by decide) 0 (by decide) 0 (by decide)
